import Mathlib

/-!
Verification development for the planar computational-geometry engine
(repository `geo`, module `src/geo/src/algorithm/mod.rs`).

The repository snapshot contains only the module index `algorithm/mod.rs`
(module declarations and doc comments); the bodies of `kernels`, `sweep`,
`bool_ops`, `relate`, `area`, `contains`, `within` and
`coordinate_position` are not present under `src/`.  Every definition
below is therefore modelled from the specification (`spec.md`); each one
says in its doc comment which missing piece it models.

Conventions of the embedding:
* input coordinates are exact integers (`IPt`), as the spec's coordinate
  type "supporting total ordering and exact comparison";
* arrangement vertices may be intersection points of integer segments
  and are therefore exact rationals (`QPt`);
* machine arithmetic of the checked orientation kernel is modelled as
  64-bit two's-complement wrapping (`wrap`), with the checked operations
  failing whenever the wrapped value differs from the exact one;
* fallible operations return `Except`.
-/

namespace Geo

/-- Modelled from the spec: an exact input coordinate, "an (x, y) pair over a
numeric type supporting total ordering and exact comparison" (§3). -/
abbrev IPt := Int × Int

/-- Modelled from the spec: an arrangement vertex.  Intersection points of
integer segments are rational, and the spec requires them to be "computed
from the exact parametrization of both segments" (§4.1). -/
abbrev QPt := ℚ × ℚ

/-- Embed an input coordinate into the exact arrangement coordinates. -/
def toQ (p : IPt) : QPt := ((p.1 : ℚ), (p.2 : ℚ))

/-- Modelled from the spec: the turn-direction result of the missing
`kernels::Orientation` type, "whether they turn left, right, or are
collinear" (§4.1); collinear is a distinct third outcome. -/
inductive Orientation where
  | counterClockwise
  | clockwise
  | collinear
deriving DecidableEq

/-- The orientation determinant of three points, computed in unbounded
exact integer arithmetic. -/
def det (a b c : IPt) : Int :=
  (b.1 - a.1) * (c.2 - a.2) - (b.2 - a.2) * (c.1 - a.1)

/-- Turn direction read off the sign of the orientation determinant. -/
def orientationOfDet (d : Int) : Orientation :=
  if 0 < d then Orientation.counterClockwise
  else if d < 0 then Orientation.clockwise
  else Orientation.collinear

/-- Modelled from the spec: the missing `kernels` exact orientation
predicate `orientation(a, b, c)` (§4.1), over unbounded integers. -/
def orientation (a b c : IPt) : Orientation :=
  orientationOfDet (det a b c)

/-- Modelled from the spec: the `NumericOverflow` failure condition of the
missing kernel ("the kernel must fail with a NumericOverflow condition
rather than silently return a wrong sign", §4.1/§7). -/
inductive NumericOverflow where
  | numericOverflow
deriving DecidableEq

/-- 64-bit two's-complement wrapping, the machine arithmetic underlying the
checked kernel model. -/
def wrap (z : Int) : Int :=
  (z + 2 ^ 63) % 2 ^ 64 - 2 ^ 63

/-- Checked subtraction: fails when the machine result would differ from the
exact one. -/
def checkedSub (a b : Int) : Option Int :=
  if wrap (a - b) = a - b then some (a - b) else none

/-- Checked multiplication: fails when the machine result would differ from
the exact one. -/
def checkedMul (a b : Int) : Option Int :=
  if wrap (a * b) = a * b then some (a * b) else none

/-- Modelled from the spec: the missing checked orientation kernel.  Every
intermediate value of the determinant is computed with checked machine
arithmetic; any overflow aborts with `NumericOverflow` (§4.1). -/
def orientationChecked (a b c : IPt) : Except NumericOverflow Orientation :=
  match checkedSub b.1 a.1, checkedSub c.2 a.2, checkedSub b.2 a.2, checkedSub c.1 a.1 with
  | some dx1, some dy2, some dy1, some dx2 =>
    match checkedMul dx1 dy2, checkedMul dy1 dx2 with
    | some m1, some m2 =>
      match checkedSub m1 m2 with
      | some d => Except.ok (orientationOfDet d)
      | none => Except.error NumericOverflow.numericOverflow
    | _, _ => Except.error NumericOverflow.numericOverflow
  | _, _, _, _ => Except.error NumericOverflow.numericOverflow

/-- The exact intermediate values of the orientation determinant, and
whether any of them exceeds the representable 64-bit precision. -/
def anyIntermediateOverflow (a b c : IPt) : Bool :=
  !([b.1 - a.1, c.2 - a.2, b.2 - a.2, c.1 - a.1,
     (b.1 - a.1) * (c.2 - a.2), (b.2 - a.2) * (c.1 - a.1),
     (b.1 - a.1) * (c.2 - a.2) - (b.2 - a.2) * (c.1 - a.1)].all
    fun z => wrap z == z)

/-- Modelled from the spec: an `Edge`, "an ordered pair of coordinates
(origin → destination)" (§3); provenance tags are omitted because no frozen
claim depends on them. -/
structure Seg where
  a : IPt
  b : IPt
deriving DecidableEq

/-- An arc of the arrangement: a maximal intersection-free sub-segment,
with exact rational endpoints. -/
structure QSeg where
  a : QPt
  b : QPt
deriving DecidableEq

/-- Modelled from the spec: proper ("transversal") crossing of two
segments, decided purely from the four orientation predicates, with
collinear outcomes treated as not crossing (§4.1). -/
def properCross (e f : Seg) : Bool :=
  let o1 := orientation e.a e.b f.a
  let o2 := orientation e.a e.b f.b
  let o3 := orientation f.a f.b e.a
  let o4 := orientation f.a f.b e.b
  (o1 != o2) && (o1 != Orientation.collinear) && (o2 != Orientation.collinear) &&
  (o3 != o4) && (o3 != Orientation.collinear) && (o4 != Orientation.collinear)

/-- Modelled from the spec: the intersection point of two properly crossing
segments, "computed from the exact parametrization of both segments"
(§4.1), in exact rational arithmetic. -/
def crossPt (e f : Seg) : QPt :=
  let ax : ℚ := (e.a.1 : ℚ)
  let ay : ℚ := (e.a.2 : ℚ)
  let dx : ℚ := ((e.b.1 - e.a.1 : Int) : ℚ)
  let dy : ℚ := ((e.b.2 - e.a.2 : Int) : ℚ)
  let ex : ℚ := ((f.b.1 - f.a.1 : Int) : ℚ)
  let ey : ℚ := ((f.b.2 - f.a.2 : Int) : ℚ)
  let denom : ℚ := dx * ey - dy * ex
  let t : ℚ := (((f.a.1 - e.a.1 : Int) : ℚ) * ey - ((f.a.2 - e.a.2 : Int) : ℚ) * ex) / denom
  (ax + t * dx, ay + t * dy)

/-- Whether a point lies strictly inside (collinear with and strictly
between the endpoints of) a segment. -/
def strictlyInside (p : IPt) (e : Seg) : Bool :=
  (orientation e.a e.b p == Orientation.collinear) &&
  (if e.a.1 == e.b.1 then
     decide (min e.a.2 e.b.2 < p.2) && decide (p.2 < max e.a.2 e.b.2)
   else
     decide (min e.a.1 e.b.1 < p.1) && decide (p.1 < max e.a.1 e.b.1))

/-- Modelled from the spec: the points at which an edge `e` must be split
because of one other edge `f`: a proper crossing point, or an endpoint of
`f` lying strictly inside `e` (§4.2, "Edges found to intersect are split at
the intersection point"). -/
def splitsOn (e f : Seg) : List QPt :=
  (if properCross e f then [crossPt e f] else []) ++
  (if strictlyInside f.a e then [toQ f.a] else []) ++
  (if strictlyInside f.b e then [toQ f.b] else [])

/-- All split points of an edge against the other edges of the input,
deduplicated. -/
def splitPoints (e : Seg) (edges : List Seg) : List QPt :=
  ((edges.filter (fun f => f != e)).flatMap (fun f => splitsOn e f)).dedup

/-- The sweep-line total order on event coordinates: "primary: x ascending,
tie-break: y ascending" (§3). -/
def qLtB (p q : QPt) : Bool :=
  decide (p.1 < q.1) || ((p.1 == q.1) && decide (p.2 < q.2))

/-- The parameter of a point along a segment, used to order split points
along the edge they subdivide. -/
def paramOf (e : Seg) (p : QPt) : ℚ :=
  if e.a.1 == e.b.1 then
    (p.2 - (e.a.2 : ℚ)) / (((e.b.2 - e.a.2 : Int) : ℚ))
  else
    (p.1 - (e.a.1 : ℚ)) / (((e.b.1 - e.a.1 : Int) : ℚ))

/-- Sorted insertion with respect to a strict-order comparator; an element
ordered equal to one already present is dropped (deduplication). -/
def insertSorted {α : Type} (lt : α → α → Bool) (p : α) : List α → List α
  | [] => [p]
  | q :: rest =>
    if lt p q then p :: q :: rest
    else if lt q p then q :: insertSorted lt p rest
    else q :: rest

/-- Sort a list by repeated sorted insertion, deduplicating elements the
comparator cannot distinguish. -/
def sortDedup {α : Type} (lt : α → α → Bool) (l : List α) : List α :=
  l.foldr (insertSorted lt) []

/-- The split points of an edge, in traversal order along the edge. -/
def orderedSplits (e : Seg) (edges : List Seg) : List QPt :=
  sortDedup (fun p q => decide (paramOf e p < paramOf e q)) (splitPoints e edges)

/-- The chain of arcs through a list of consecutive vertices. -/
def chainArcs : List QPt → List QSeg
  | [] => []
  | [_] => []
  | p :: q :: rest => ⟨p, q⟩ :: chainArcs (q :: rest)

/-- Modelled from the spec: the arcs an input edge contributes to the
arrangement, i.e. the edge cut at each of its split points; "every original
edge's extent is exactly covered by a contiguous chain of arcs" (§3). -/
def arcsOf (e : Seg) (edges : List Seg) : List QSeg :=
  chainArcs (toQ e.a :: (orderedSplits e edges ++ [toQ e.b]))

/-- All unordered pairs of distinct positions of a list. -/
def offDiagPairs {α : Type} : List α → List (α × α)
  | [] => []
  | e :: rest => rest.map (fun f => (e, f)) ++ offDiagPairs rest

/-- The proper pairwise crossing points of an edge set. -/
def properCrossPoints (edges : List Seg) : List QPt :=
  (offDiagPairs edges).filterMap
    (fun pr => if properCross pr.1 pr.2 then some (crossPt pr.1 pr.2) else none)

/-- Modelled from the spec: the `Arrangement` produced by the sweep, "an
undirected planar graph of vertices and arcs (maximal intersection-free
sub-segments)" (§3); `newVertices` are the intersection vertices the sweep
discovered, which are not input endpoints. -/
structure Arrangement where
  arcs : List QSeg
  newVertices : List QPt
deriving DecidableEq

/-- Construct the arrangement of an edge set with the exact kernel. -/
def buildArrangement (edges : List Seg) : Arrangement :=
  { arcs := edges.flatMap (fun e => arcsOf e edges)
  , newVertices := (properCrossPoints edges).dedup }

/-- Whether all four orientation queries the sweep makes for a pair of
edges stay within the representable precision. -/
def segPairSafe (e f : Seg) : Bool :=
  !(anyIntermediateOverflow e.a e.b f.a || anyIntermediateOverflow e.a e.b f.b ||
    anyIntermediateOverflow f.a f.b e.a || anyIntermediateOverflow f.a f.b e.b)

/-- Modelled from the spec: the missing `sweep` operation,
`sweep(edges: set of Edge) -> Result<Arrangement, NumericOverflow>` (§6):
if any kernel invocation on a pair of edges overflows, the sweep fails
with `NumericOverflow`; otherwise it produces the arrangement. -/
def sweep (edges : List Seg) : Except NumericOverflow Arrangement :=
  if (offDiagPairs edges).all (fun pr => segPairSafe pr.1 pr.2) then
    Except.ok (buildArrangement edges)
  else
    Except.error NumericOverflow.numericOverflow

/-- Modelled from the spec: the hypothesis of the sweep test property
"N segments forming a simple polygon (no self-intersections)" (§8): no two
distinct edges properly cross, touch in a `T`-junction, or overlap
(`splitsOn` empty in both directions). -/
def simplePolyInput (edges : List Seg) : Bool :=
  (offDiagPairs edges).all fun pr =>
    !properCross pr.1 pr.2 && !properCross pr.2 pr.1 &&
    !strictlyInside pr.2.a pr.1 && !strictlyInside pr.2.b pr.1 &&
    !strictlyInside pr.1.a pr.2 && !strictlyInside pr.1.b pr.2

/-- Modelled from the spec: the state of the sweep engine, "a priority
queue of pending events ordered by the coordinate total order" together
with the processed events (§4.2). -/
structure SweepState where
  queue : List QPt
  processed : List QPt
deriving DecidableEq

/-- Modelled from the spec: one transition of the event loop: the minimal
pending event is processed, and "any discovered intersection coordinate
strictly ahead of the sweep position is inserted as a new event
(deduplicated if already queued)" (§4.2). -/
def eventStep (edges : List Seg) (st : SweepState) : SweepState :=
  match st.queue with
  | [] => st
  | e :: rest =>
    { queue := ((properCrossPoints edges).filter (fun p => qLtB e p)).foldr
        (insertSorted qLtB) rest
    , processed := e :: st.processed }

/-- The sweep event loop, driven by an explicit fuel counter; the engine
itself stops when the queue is empty, and the termination theorem shows
the fuel equal to the event-universe size always suffices. -/
def runSweepQueue (edges : List Seg) : Nat → SweepState → SweepState
  | 0, st => st
  | fuel + 1, st =>
    match st.queue with
    | [] => st
    | _ :: _ => runSweepQueue edges fuel (eventStep edges st)

/-- The initial sweep state: all edge endpoints, sorted and deduplicated,
pending; nothing processed. -/
def initState (edges : List Seg) : SweepState :=
  { queue := sortDedup qLtB (edges.flatMap fun e => [toQ e.a, toQ e.b])
  , processed := [] }

/-- Modelled from the spec: the finite universe of events a sweep run can
ever see: the `2 n` edge endpoints plus the `k` pairwise intersection
points ("bounded by O(n + k) events", §4.2). -/
def eventUniverse (edges : List Seg) : List QPt :=
  (edges.flatMap fun e => [toQ e.a, toQ e.b]) ++ properCrossPoints edges

/-- Modelled from the spec: a geometry, "one or more closed rings; each
ring an ordered sequence of coordinates with equal first/last coordinate"
(§6), as consumed by `relate`, `bool_ops`, `contains` and `within`. -/
structure Geometry where
  rings : List (List IPt)
deriving DecidableEq

/-- The consecutive segments of one stored ring. -/
def ringSegs : List IPt → List Seg
  | [] => []
  | [_] => []
  | p :: q :: rest => ⟨p, q⟩ :: ringSegs (q :: rest)

/-- All boundary segments of a geometry. -/
def allSegs (g : Geometry) : List Seg :=
  g.rings.flatMap ringSegs

/-- Modelled from the spec: twice the signed shoelace area of a geometry,
the exact-integer content of the missing `area` algorithm; only its
vanishing is consumed (degeneracy test, §4.3). -/
def signedArea2 (g : Geometry) : Int :=
  ((allSegs g).map fun s => s.a.1 * s.b.2 - s.b.1 * s.a.2).sum

/-- Whether a point lies on a segment (endpoints included). -/
def onSegI (p : IPt) (s : Seg) : Bool :=
  (orientation s.a s.b p == Orientation.collinear) &&
  decide (min s.a.1 s.b.1 ≤ p.1) && decide (p.1 ≤ max s.a.1 s.b.1) &&
  decide (min s.a.2 s.b.2 ≤ p.2) && decide (p.2 ≤ max s.a.2 s.b.2)

/-- Whether a rightward horizontal ray from `p` crosses a segment, with the
standard half-open vertical rule so that a closed polygon is crossed an
even number of times by a ray missing its boundary. -/
def raySegCrosses (p : IPt) (s : Seg) : Bool :=
  if decide (s.a.2 ≤ p.2) && decide (p.2 < s.b.2) then
    orientation s.a s.b p == Orientation.counterClockwise
  else if decide (s.b.2 ≤ p.2) && decide (p.2 < s.a.2) then
    orientation s.b s.a p == Orientation.counterClockwise
  else
    false

/-- Modelled from the spec: the even-odd fill-rule parity of the "signed
crossing count accumulated along any ray from infinity" (§4.3), at an
integer coordinate. -/
def insideEO (g : Geometry) (p : IPt) : Bool :=
  ((allSegs g).countP (raySegCrosses p)) % 2 == 1

/-- Modelled from the spec: the position classes of the DE-9IM: interior,
boundary, exterior. -/
inductive PosClass where
  | interior
  | boundary
  | exterior
deriving DecidableEq

/-- Whether a point lies on the boundary of a geometry. -/
def onBoundary (g : Geometry) (p : IPt) : Bool :=
  (allSegs g).any (onSegI p)

/-- Modelled from the spec: the missing `coordinate_position` algorithm,
"whether a `Coord` lies inside, outside, or on the boundary of a geometry"
(module index); a boundary point is classified as boundary even when the
fill rule would also count it as inside. -/
def coordinatePosition (g : Geometry) (p : IPt) : PosClass :=
  if onBoundary g p then PosClass.boundary
  else if insideEO g p then PosClass.interior
  else PosClass.exterior

/-- Modelled from the spec: the dimensional codes of the Intersection
Matrix, "one of (empty, point, line, area)" (§3). -/
inductive Dim where
  | empty
  | point
  | line
  | area
deriving DecidableEq

/-- The rank of a dimensional code (empty before point before line before
area). -/
def dimRank : Dim → Nat
  | Dim.empty => 0
  | Dim.point => 1
  | Dim.line => 2
  | Dim.area => 3

/-- The larger of two dimensional codes: the relator aggregates "the
maximum dimension observed for each of the nine combinations" (§4.3). -/
def dimSup (d e : Dim) : Dim :=
  if dimRank d ≤ dimRank e then e else d

/-- Comparison of dimensional codes by rank. -/
def dimLe (d e : Dim) : Bool :=
  decide (dimRank d ≤ dimRank e)

/-- Modelled from the spec: the Intersection Matrix, "a fixed 3×3 table of
dimensional codes indexed by (interior/boundary/exterior of A) ×
(interior/boundary/exterior of B)" (§3). -/
def IM := PosClass → PosClass → Dim

/-- A classified feature of the arrangement: its dimension together with
its position class with respect to each operand (§4.3). -/
structure Feature where
  d : Dim
  ca : PosClass
  cb : PosClass
deriving DecidableEq

/-- The matrix cell a feature is attributed to. -/
def cellOf (f : Feature) : PosClass × PosClass :=
  (f.ca, f.cb)

/-- Modelled from the spec: aggregation of the Intersection Matrix from the
classified features: each cell holds the maximum dimension observed among
the features attributed to it, `empty` if there is none (§4.3). -/
def relateMatrix (fs : List Feature) : IM :=
  fun i j =>
    fs.foldr (fun f acc => if f.ca == i && f.cb == j then dimSup f.d acc else acc)
      Dim.empty

/-- Swap the two operands of a feature. -/
def swapFeature (f : Feature) : Feature :=
  ⟨f.d, f.cb, f.ca⟩

/-- The sweep order on integer input coordinates. -/
def iLtB (p q : IPt) : Bool :=
  decide (p.1 < q.1) || ((p.1 == q.1) && decide (p.2 < q.2))

/-- All stored vertices of a geometry. -/
def vertices (g : Geometry) : List IPt :=
  g.rings.flatMap (fun r => r)

/-- The canonical (sorted, deduplicated) combined vertex set of two
geometries; it does not depend on the operand order. -/
def samplePoints (a b : Geometry) : List IPt :=
  sortDedup iLtB (vertices a ++ vertices b)

/-- The classified zero-dimensional feature of one combined vertex. -/
def featureAt (a b : Geometry) (p : IPt) : Feature :=
  ⟨Dim.point, coordinatePosition a p, coordinatePosition b p⟩

/-- Modelled from the spec: the missing `relate` operation restricted to
the zero-dimensional features of the combined arrangement: every combined
vertex is classified against both operands and aggregated into the
Intersection Matrix (§4.3).  The derived predicate templates below consume
this vertex restriction; `relateWith`, defined once the arrangement arcs
are available, extends it with the one- and two-dimensional features. -/
def relate (a b : Geometry) : IM :=
  relateMatrix ((samplePoints a b).map (featureAt a b))

/-- Modelled from the spec: the DE-9IM template of the derived `contains`
predicate ("A completely encloses B", module index): interiors meet, and
nothing of B lies in A's exterior. -/
def containsPred (m : IM) : Bool :=
  (m PosClass.interior PosClass.interior != Dim.empty) &&
  (m PosClass.exterior PosClass.interior == Dim.empty) &&
  (m PosClass.exterior PosClass.boundary == Dim.empty)

/-- Modelled from the spec: the DE-9IM template of the derived `within`
predicate ("A is completely within B", module index): interiors meet, and
nothing of A lies in B's exterior. -/
def withinPred (m : IM) : Bool :=
  (m PosClass.interior PosClass.interior != Dim.empty) &&
  (m PosClass.interior PosClass.exterior == Dim.empty) &&
  (m PosClass.boundary PosClass.exterior == Dim.empty)

/-- Modelled from the spec: the DE-9IM template of the derived `equals`
predicate: interiors meet and neither operand reaches the other's
exterior. -/
def equalsPred (m : IM) : Bool :=
  (m PosClass.interior PosClass.interior != Dim.empty) &&
  (m PosClass.interior PosClass.exterior == Dim.empty) &&
  (m PosClass.boundary PosClass.exterior == Dim.empty) &&
  (m PosClass.exterior PosClass.interior == Dim.empty) &&
  (m PosClass.exterior PosClass.boundary == Dim.empty)

/-- Modelled from the spec: the missing `contains` predicate, a "thin
boolean template over this matrix" (§4.3/§6). -/
def contains (a b : Geometry) : Bool :=
  containsPred (relate a b)

/-- Modelled from the spec: the missing `within` predicate, a "thin boolean
template over this matrix" (§4.3/§6). -/
def within (a b : Geometry) : Bool :=
  withinPred (relate a b)

/-- Modelled from the spec: the operation selector of the missing
`bool_ops::OpType`: union, intersection, difference and symmetric
difference (§4.4/§6). -/
inductive OpType where
  | union
  | intersection
  | difference
  | symDifference
deriving DecidableEq

/-- Modelled from the spec: the Boolean Set-Operator's per-arc decision
table, classifying "each arc as keep or discard according to the requested
operation's inclusion rule" (§4.4), from the two insideness bits. -/
def keepArc (op : OpType) (ia ib : Bool) : Bool :=
  match op with
  | OpType.union => ia || ib
  | OpType.intersection => ia && ib
  | OpType.difference => ia && !ib
  | OpType.symDifference => ia != ib

/-- The spec's inclusion-rule table (§4.4), stated as it is written: keep
if "inside A OR inside B" (union), "inside A AND inside B" (intersection),
"inside A AND NOT inside B" (difference), "inside exactly one of A, B"
(symmetric difference).  This is the specification-side statement the
implementation-side `keepArc` is compared against. -/
def inclusionRule (op : OpType) (ia ib : Prop) : Prop :=
  match op with
  | OpType.union => ia ∨ ib
  | OpType.intersection => ia ∧ ib
  | OpType.difference => ia ∧ ¬ib
  | OpType.symDifference => (ia ∧ ¬ib) ∨ (¬ia ∧ ib)

/-- Turn direction read off the sign of a rational determinant. -/
def orientationOfDet2 (d : ℚ) : Orientation :=
  if 0 < d then Orientation.counterClockwise
  else if d < 0 then Orientation.clockwise
  else Orientation.collinear

/-- Orientation of exact rational points. -/
def orientationQ (a b c : QPt) : Orientation :=
  orientationOfDet2 ((b.1 - a.1) * (c.2 - a.2) - (b.2 - a.2) * (c.1 - a.1))

/-- A boundary segment of a geometry, embedded into the exact coordinates. -/
def toQSeg (s : Seg) : QSeg :=
  ⟨toQ s.a, toQ s.b⟩

/-- The rightward-ray crossing test at an exact rational point. -/
def raySegCrossesQ (p : QPt) (s : QSeg) : Bool :=
  if decide (s.a.2 ≤ p.2) && decide (p.2 < s.b.2) then
    orientationQ s.a s.b p == Orientation.counterClockwise
  else if decide (s.b.2 ≤ p.2) && decide (p.2 < s.a.2) then
    orientationQ s.b s.a p == Orientation.counterClockwise
  else
    false

/-- Modelled from the spec: the Winding-Accumulator insideness of an exact
point with respect to one operand, under the even-odd fill rule (§3,
§4.4). -/
def insideEOQ (g : Geometry) (p : QPt) : Bool :=
  (((allSegs g).map toQSeg).countP (raySegCrossesQ p)) % 2 == 1

/-- The midpoint of an arc; since no other edge crosses an arc, the
midpoint's insideness is the insideness of the whole arc. -/
def midQ (c : QSeg) : QPt :=
  ((c.a.1 + c.b.1) / 2, (c.a.2 + c.b.2) / 2)

/-- Whether an arc of the combined arrangement lies inside an operand,
decided at its midpoint (§4.4). -/
def arcInside (g : Geometry) (c : QSeg) : Bool :=
  insideEOQ g (midQ c)

/-- The arcs of the arrangement "built over the combined edge set of both
operands" (§4.4). -/
def combinedArcs (a b : Geometry) : List QSeg :=
  (buildArrangement (allSegs a ++ allSegs b)).arcs

/-- Modelled from the spec: the arcs the Boolean Set-Operator keeps for a
requested operation (§4.4). -/
def keptArcs (op : OpType) (a b : Geometry) : List QSeg :=
  (combinedArcs a b).filter (fun c => keepArc op (arcInside a c) (arcInside b c))

/-- Whether an exact rational point lies on a segment (endpoints
included). -/
def onSegQ (p : QPt) (s : QSeg) : Bool :=
  (orientationQ s.a s.b p == Orientation.collinear) &&
  decide (min s.a.1 s.b.1 ≤ p.1) && decide (p.1 ≤ max s.a.1 s.b.1) &&
  decide (min s.a.2 s.b.2 ≤ p.2) && decide (p.2 ≤ max s.a.2 s.b.2)

/-- Whether an exact rational point lies on the boundary of a geometry. -/
def onBoundaryQ (g : Geometry) (p : QPt) : Bool :=
  ((allSegs g).map toQSeg).any (onSegQ p)

/-- Modelled from the spec: the dimensional membership of one arrangement
arc with respect to one operand, decided at the arc's midpoint exactly as
§4.3 prescribes for the walk: part of the operand's boundary if the point
lies on it, otherwise interior or exterior by the winding parity of a ray
from infinity. -/
def arcClass (g : Geometry) (c : QSeg) : PosClass :=
  if onBoundaryQ g (midQ c) then PosClass.boundary
  else if insideEOQ g (midQ c) then PosClass.interior
  else PosClass.exterior

/-- The classified one-dimensional feature of one arc of the combined
arrangement (§4.3). -/
def arcFeature (a b : Geometry) (c : QSeg) : Feature :=
  ⟨Dim.line, arcClass a c, arcClass b c⟩

/-- The classified two-dimensional feature of one face of the combined
arrangement, given by a representative point of the face, classified
against both operands like every other feature (§4.3). -/
def regionFeatureAt (a b : Geometry) (p : IPt) : Feature :=
  ⟨Dim.area, coordinatePosition a p, coordinatePosition b p⟩

/-- Modelled from the spec: the classified features of all three
dimensions the relate walk visits (§4.3): the vertices of the combined
arrangement (dimension 0), its arcs (dimension 1) and its faces
(dimension 2), each classified against both operands.  The spec's walk
leaves the face enumeration implicit, so the face-representative points
are an argument; their classification is computed, never assumed. -/
def relateFeatures (a b : Geometry) (faceSamples : List IPt) : List Feature :=
  (samplePoints a b).map (featureAt a b)
    ++ (combinedArcs a b).map (arcFeature a b)
    ++ faceSamples.map (regionFeatureAt a b)

/-- Modelled from the spec: the missing `relate` operation with features of
all three dimensions aggregated by maximum dimension (§4.3). -/
def relateWith (a b : Geometry) (faceSamples : List IPt) : IM :=
  relateMatrix (relateFeatures a b faceSamples)

/-- Modelled from the spec: the error taxonomy of the Boolean
Set-Operator, `InvalidGeometry` and `IntegrityViolation` (§6/§7). -/
inductive BoolOpsError where
  | invalidGeometry
  | integrityViolation
deriving DecidableEq

/-- Whether a stored ring is closed with at least four coordinates
(input contract, §6). -/
def ringClosed : List IPt → Bool
  | [] => false
  | p :: rest => (rest.getLast? == some p) && decide (4 ≤ (p :: rest).length)

/-- Whether a stored ring is free of proper self-intersections (the
malformed-input condition of §4.4). -/
def ringSimple (r : List IPt) : Bool :=
  (offDiagPairs (ringSegs r)).all fun pr => !properCross pr.1 pr.2

/-- Modelled from the spec: input validation of the Boolean Set-Operator:
every ring closed, long enough and without proper self-intersections
(§4.4/§6). -/
def validGeometry (g : Geometry) : Bool :=
  g.rings.all fun r => ringClosed r && ringSimple r

/-- The number of kept-arc endpoints incident to a vertex. -/
def endpointCount (arcs : List QSeg) (v : QPt) : Nat :=
  arcs.countP (fun c => c.a == v) + arcs.countP (fun c => c.b == v)

/-- Modelled from the spec: a dangling arc: an arc one of whose endpoints
has odd incidence among the kept arcs, so no stitching can close a ring
through it (§4.4). -/
def hasDangling (arcs : List QSeg) : Bool :=
  arcs.any fun c =>
    (endpointCount arcs c.a % 2 == 1) || (endpointCount arcs c.b % 2 == 1)

/-- Modelled from the spec: the ring-stitching step: it "must fail loudly
(IntegrityViolation) rather than emit a malformed polygon" when a dangling
arc cannot close a ring (§4.4).  The assembled output is the kept arc set
itself; the frozen claims do not depend on the ring grouping. -/
def stitchRings (arcs : List QSeg) : Option (List QSeg) :=
  if hasDangling arcs then none else some arcs

/-- Modelled from the spec: the `MultiPolygon` output of the Boolean
Set-Operator, represented by its assembled arcs. -/
structure MultiPolygon where
  arcs : List QSeg
deriving DecidableEq

/-- Modelled from the spec: the missing `apply` pipeline of `bool_ops`,
parameterized by the sweep stage so that the validation stage is
manifestly independent of it: validate the inputs (failing with
`InvalidGeometry` before the sweep runs), sweep the combined edge set,
classify the arcs, and stitch, failing with `IntegrityViolation` on a
dangling arc (§4.4/§6). -/
def applyWith (sweepArcs : List Seg → List QSeg) (op : OpType) (a b : Geometry) :
    Except BoolOpsError MultiPolygon :=
  if validGeometry a && validGeometry b then
    let arcs := (sweepArcs (allSegs a ++ allSegs b)).filter
      (fun c => keepArc op (arcInside a c) (arcInside b c))
    match stitchRings arcs with
    | some rings => Except.ok ⟨rings⟩
    | none => Except.error BoolOpsError.integrityViolation
  else
    Except.error BoolOpsError.invalidGeometry

/-- Modelled from the spec: the missing
`apply(op, a, b) -> Result<MultiPolygon, (InvalidGeometry, IntegrityViolation)>`
of the Boolean Set-Operator (§6). -/
def applyOp (op : OpType) (a b : Geometry) : Except BoolOpsError MultiPolygon :=
  applyWith (fun es => (buildArrangement es).arcs) op a b

/-- Modelled from the spec: the point-set denotation of the Boolean
Set-Operator's output: a point of the plane belongs to `apply(op, A, B)`
exactly when the operation's inclusion rule holds for it (§4.4); the
area of the output is the Lebesgue measure of this set. -/
def applyRegion (op : OpType) (A B : Set (ℝ × ℝ)) : Set (ℝ × ℝ) :=
  {p | inclusionRule op (p ∈ A) (p ∈ B)}

/-- The invariant of the sweep event loop: the queue is sorted in the
event order and drawn from the finite event universe, the processed events
are pairwise distinct members of the universe, and every pending event is
strictly ahead of every processed one. -/
def SInv (edges : List Seg) (st : SweepState) : Prop :=
  st.queue.Pairwise (fun p q => qLtB p q = true)
  ∧ (∀ p ∈ st.queue, p ∈ eventUniverse edges)
  ∧ st.processed.Nodup
  ∧ (∀ p ∈ st.processed, p ∈ eventUniverse edges)
  ∧ (∀ p ∈ st.processed, ∀ q ∈ st.queue, qLtB p q = true)

theorem orientationChecked_eq (a b c : IPt) :
    orientationChecked a b c =
      if anyIntermediateOverflow a b c then Except.error NumericOverflow.numericOverflow
      else Except.ok (orientation a b c) := by
  unfold orientationChecked checkedSub checkedMul anyIntermediateOverflow orientation det
  by_cases h1 : wrap (b.1 - a.1) = b.1 - a.1 <;>
    by_cases h2 : wrap (c.2 - a.2) = c.2 - a.2 <;>
    by_cases h3 : wrap (b.2 - a.2) = b.2 - a.2 <;>
    by_cases h4 : wrap (c.1 - a.1) = c.1 - a.1 <;>
    by_cases h5 : wrap ((b.1 - a.1) * (c.2 - a.2)) = (b.1 - a.1) * (c.2 - a.2) <;>
    by_cases h6 : wrap ((b.2 - a.2) * (c.1 - a.1)) = (b.2 - a.2) * (c.1 - a.1) <;>
    by_cases h7 : wrap ((b.1 - a.1) * (c.2 - a.2) - (b.2 - a.2) * (c.1 - a.1)) =
      (b.1 - a.1) * (c.2 - a.2) - (b.2 - a.2) * (c.1 - a.1) <;>
    simp [h1, h2, h3, h4, h5, h6, h7]

/-- C7.  Whenever intermediate arithmetic of the Orientation Kernel
overflows the representable precision, the checked kernel fails with a
`NumericOverflow` error (and so does `sweep`, whose result type is
`Except NumericOverflow Arrangement`) rather than returning a wrong
orientation sign; when no intermediate overflows, the returned sign is the
sign of the exact orientation determinant, so an `ok` answer is never
wrong. -/
theorem c7_kernel_overflow_never_wrong_sign :
    (∀ (a b c : IPt) (o : Orientation),
        orientationChecked a b c = Except.ok o → o = orientation a b c)
    ∧ (∀ a b c : IPt, anyIntermediateOverflow a b c = true →
        orientationChecked a b c = Except.error NumericOverflow.numericOverflow)
    ∧ (∀ a b c : IPt, anyIntermediateOverflow a b c = false →
        orientationChecked a b c = Except.ok (orientation a b c))
    ∧ (∀ edges : List Seg,
        (offDiagPairs edges).all (fun pr => segPairSafe pr.1 pr.2) = false →
        sweep edges = Except.error NumericOverflow.numericOverflow) := by
  refine ⟨?_, ?_, ?_, ?_⟩
  · intro a b c o h
    rw [orientationChecked_eq] at h
    by_cases hov : anyIntermediateOverflow a b c
    · simp [hov] at h
    · simp [hov] at h
      exact h.symm
  · intro a b c h
    rw [orientationChecked_eq, if_pos h]
  · intro a b c h
    rw [orientationChecked_eq]
    simp [h]
  · intro edges h
    unfold sweep
    rw [if_neg]
    simp [h]

/-- Witness for C7: a concrete in-range triple whose checked orientation is
the exact one, and a concrete triple whose determinant overflows 64 bits
and is answered with `NumericOverflow`. -/
theorem c7_witness :
    orientation (0, 0) (3, 1) (1, 2) = Orientation.counterClockwise
    ∧ orientationChecked (0, 0) ((2 : Int) ^ 62, 1) (1, (2 : Int) ^ 62) =
        Except.error NumericOverflow.numericOverflow :=
  ⟨(c7_kernel_overflow_never_wrong_sign.1 (0, 0) (3, 1) (1, 2)
      Orientation.counterClockwise (by rfl)).symm,
   c7_kernel_overflow_never_wrong_sign.2.1 (0, 0) ((2 : Int) ^ 62, 1) (1, (2 : Int) ^ 62)
      (by decide)⟩

/-- C1.  An arc of the arrangement built over the combined edge set of the
two operands is kept by the Boolean Set-Operator exactly according to the
requested operation's inclusion rule: inside A OR inside B for union,
inside A AND inside B for intersection, inside A AND NOT inside B for the
difference A − B, and inside exactly one of A, B for the symmetric
difference. -/
theorem c1_bool_ops_inclusion_rule (op : OpType) (a b : Geometry) (c : QSeg) :
    c ∈ keptArcs op a b ↔
      c ∈ combinedArcs a b ∧
        inclusionRule op (arcInside a c = true) (arcInside b c = true) := by
  unfold keptArcs
  rw [List.mem_filter]
  cases hA : arcInside a c <;> cases hB : arcInside b c <;> cases op <;>
    simp [keepArc, inclusionRule, hA, hB]

theorem applyRegion_union (A B : Set (ℝ × ℝ)) :
    applyRegion OpType.union A B = A ∪ B := rfl

theorem applyRegion_inter (A B : Set (ℝ × ℝ)) :
    applyRegion OpType.intersection A B = A ∩ B := rfl

/-- C2.  For measurable regions A and B, the area of `apply(Union, A, B)`
is at least `max(area A, area B)`, the area of `apply(Intersection, A, B)`
is at most `min(area A, area B)`, and union area plus intersection area
equals `area A + area B` (inclusion–exclusion, here exactly rather than
merely within tolerance). -/
theorem c2_bool_ops_area_relations (A B : Set (ℝ × ℝ)) (hB : MeasurableSet B) :
    max (MeasureTheory.volume A) (MeasureTheory.volume B) ≤
        MeasureTheory.volume (applyRegion OpType.union A B)
    ∧ MeasureTheory.volume (applyRegion OpType.intersection A B) ≤
        min (MeasureTheory.volume A) (MeasureTheory.volume B)
    ∧ MeasureTheory.volume (applyRegion OpType.union A B) +
        MeasureTheory.volume (applyRegion OpType.intersection A B) =
        MeasureTheory.volume A + MeasureTheory.volume B := by
  rw [applyRegion_union, applyRegion_inter]
  refine ⟨max_le (MeasureTheory.measure_mono Set.subset_union_left)
      (MeasureTheory.measure_mono Set.subset_union_right),
    le_min (MeasureTheory.measure_mono Set.inter_subset_left)
      (MeasureTheory.measure_mono Set.inter_subset_right),
    MeasureTheory.measure_union_add_inter A hB⟩

/-- Witness for C2: the unit square is a measurable region, and the C2 area
relations hold for it against itself. -/
theorem c2_witness :
    MeasurableSet ((Set.Icc (0 : ℝ) 1) ×ˢ (Set.Icc (0 : ℝ) 1))
    ∧ max (MeasureTheory.volume ((Set.Icc (0 : ℝ) 1) ×ˢ (Set.Icc (0 : ℝ) 1)))
          (MeasureTheory.volume ((Set.Icc (0 : ℝ) 1) ×ˢ (Set.Icc (0 : ℝ) 1))) ≤
        MeasureTheory.volume (applyRegion OpType.union
          ((Set.Icc (0 : ℝ) 1) ×ˢ (Set.Icc (0 : ℝ) 1))
          ((Set.Icc (0 : ℝ) 1) ×ˢ (Set.Icc (0 : ℝ) 1))) :=
  ⟨measurableSet_Icc.prod measurableSet_Icc,
   (c2_bool_ops_area_relations _ _ (measurableSet_Icc.prod measurableSet_Icc)).1⟩

/-- C5.  Union is idempotent: the point set of `apply(Union, A, A)` is
exactly A, hence its area equals the area of A; at the arc level, the keep
decision of union for equal insideness bits is that bit itself. -/
theorem c5_union_idempotent :
    (∀ A : Set (ℝ × ℝ),
      applyRegion OpType.union A A = A
      ∧ MeasureTheory.volume (applyRegion OpType.union A A) = MeasureTheory.volume A)
    ∧ (∀ x : Bool, keepArc OpType.union x x = x) := by
  constructor
  · intro A
    have h : applyRegion OpType.union A A = A := by
      rw [applyRegion_union]
      exact Set.union_self A
    exact ⟨h, by rw [h]⟩
  · intro x
    cases x <;> rfl

theorem applyWith_invalid (f : List Seg → List QSeg) (op : OpType) (a b : Geometry)
    (h : (validGeometry a && validGeometry b) = false) :
    applyWith f op a b = Except.error BoolOpsError.invalidGeometry := by
  unfold applyWith
  simp [h]

/-- C8.  On a malformed input the Boolean Set-Operator returns
`InvalidGeometry` before the sweep runs (the result does not depend on the
sweep stage at all); a dangling arc makes the stitching step fail, and on
valid inputs `apply` surfaces that failure as `IntegrityViolation` instead
of emitting a malformed polygon; the result is always an `Except` over
`MultiPolygon` with these two errors. -/
theorem c8_error_handling :
    (∀ (f₁ f₂ : List Seg → List QSeg) (op : OpType) (a b : Geometry),
        (validGeometry a && validGeometry b) = false →
        applyWith f₁ op a b = Except.error BoolOpsError.invalidGeometry
        ∧ applyWith f₁ op a b = applyWith f₂ op a b)
    ∧ (∀ arcs : List QSeg, hasDangling arcs = true → stitchRings arcs = none)
    ∧ (∀ (op : OpType) (a b : Geometry),
        validGeometry a = true → validGeometry b = true →
        applyOp op a b =
          match stitchRings (keptArcs op a b) with
          | some rings => Except.ok ⟨rings⟩
          | none => Except.error BoolOpsError.integrityViolation) := by
  refine ⟨?_, ?_, ?_⟩
  · intro f₁ f₂ op a b h
    rw [applyWith_invalid f₁ op a b h, applyWith_invalid f₂ op a b h]
    exact ⟨rfl, rfl⟩
  · intro arcs h
    unfold stitchRings
    rw [if_pos h]
  · intro op a b h₁ h₂
    unfold applyOp applyWith
    rw [if_pos (by simp [h₁, h₂])]
    rfl

/-- Witness for C8: a self-crossing bowtie ring is rejected as
`InvalidGeometry`, a single unmatched arc is dangling and unstitchable,
and two concrete valid squares go through the stitching stage. -/
theorem c8_witness :
    (validGeometry ⟨[[(0, 0), (2, 2), (2, 0), (0, 2), (0, 0)]]⟩ &&
        validGeometry ⟨[[(0, 0), (2, 0), (2, 2), (0, 2), (0, 0)]]⟩) = false
    ∧ applyWith (fun es => (buildArrangement es).arcs) OpType.union
        ⟨[[(0, 0), (2, 2), (2, 0), (0, 2), (0, 0)]]⟩
        ⟨[[(0, 0), (2, 0), (2, 2), (0, 2), (0, 0)]]⟩ =
        Except.error BoolOpsError.invalidGeometry
    ∧ hasDangling [⟨((0 : ℚ), (0 : ℚ)), ((1 : ℚ), (0 : ℚ))⟩] = true
    ∧ stitchRings [⟨((0 : ℚ), (0 : ℚ)), ((1 : ℚ), (0 : ℚ))⟩] = none
    ∧ applyOp OpType.intersection ⟨[[(0, 0), (2, 0), (2, 2), (0, 2), (0, 0)]]⟩
        ⟨[[(2, 0), (4, 0), (4, 2), (2, 2), (2, 0)]]⟩ =
        match stitchRings (keptArcs OpType.intersection
            ⟨[[(0, 0), (2, 0), (2, 2), (0, 2), (0, 0)]]⟩
            ⟨[[(2, 0), (4, 0), (4, 2), (2, 2), (2, 0)]]⟩) with
        | some rings => Except.ok ⟨rings⟩
        | none => Except.error BoolOpsError.integrityViolation :=
  ⟨by decide,
   (c8_error_handling.1 _ (fun _ => []) OpType.union _ _ (by decide)).1,
   by decide,
   c8_error_handling.2.1 _ (by decide),
   c8_error_handling.2.2 OpType.intersection _ _ (by decide) (by decide)⟩

theorem det_self_right (a b : IPt) : det a b a = 0 := by
  unfold det
  ring

theorem orientation_self (a b : IPt) : orientation a b a = Orientation.collinear := by
  unfold orientation
  rw [det_self_right]
  rfl

theorem properCross_self (e : Seg) : properCross e e = false := by
  simp [properCross, orientation_self]

theorem ne_of_properCross {e f : Seg} (h : properCross e f = true) : e ≠ f := by
  intro hef
  rw [hef, properCross_self] at h
  exact Bool.false_ne_true h

theorem properCross_comm (e f : Seg) : properCross f e = properCross e f := by
  simp only [properCross]
  cases orientation e.a e.b f.a <;> cases orientation e.a e.b f.b <;>
    cases orientation f.a f.b e.a <;> cases orientation f.a f.b e.b <;> rfl

theorem strictlyInside_eq_false {p : IPt} {e : Seg}
    (h : orientation e.a e.b p ≠ Orientation.collinear) : strictlyInside p e = false := by
  have hb : (orientation e.a e.b p == Orientation.collinear) = false := by
    simp [h]
  simp [strictlyInside, hb]

theorem properCross_elim {e f : Seg} (h : properCross e f = true) :
    orientation e.a e.b f.a ≠ Orientation.collinear
    ∧ orientation e.a e.b f.b ≠ Orientation.collinear := by
  simp only [properCross, Bool.and_eq_true, bne_iff_ne] at h
  exact ⟨h.1.1.1.1.2, h.1.1.1.2⟩

theorem splitsOn_of_properCross {e f : Seg} (h : properCross e f = true) :
    splitsOn e f = [crossPt e f] := by
  obtain ⟨h1, h2⟩ := properCross_elim h
  simp [splitsOn, h, strictlyInside_eq_false h1, strictlyInside_eq_false h2]

theorem splitsOn_eq_nil {e f : Seg} (h1 : properCross e f = false)
    (h2 : strictlyInside f.a e = false) (h3 : strictlyInside f.b e = false) :
    splitsOn e f = [] := by
  simp [splitsOn, h1, h2, h3]

theorem offDiagPairs_cover {α : Type} {e f : α} :
    ∀ {l : List α}, e ∈ l → f ∈ l → e ≠ f →
      (e, f) ∈ offDiagPairs l ∨ (f, e) ∈ offDiagPairs l := by
  intro l
  induction l with
  | nil => intro h _ _; exact absurd h (List.not_mem_nil e)
  | cons g rest ih =>
    intro he hf hne
    rcases List.mem_cons.mp he with rfl | he'
    · rcases List.mem_cons.mp hf with rfl | hf'
      · exact absurd rfl hne
      · left
        unfold offDiagPairs
        exact List.mem_append_left _ (List.mem_map_of_mem _ hf')
    · rcases List.mem_cons.mp hf with rfl | hf'
      · right
        unfold offDiagPairs
        exact List.mem_append_left _ (List.mem_map_of_mem _ he')
      · rcases ih he' hf' hne with h | h
        · left
          unfold offDiagPairs
          exact List.mem_append_right _ h
        · right
          unfold offDiagPairs
          exact List.mem_append_right _ h

theorem splitsOn_nil_of_simple {edges : List Seg} (h : simplePolyInput edges = true) :
    ∀ e ∈ edges, ∀ f ∈ edges, e ≠ f → splitsOn e f = [] := by
  intro e he f hf hne
  have hall := List.all_eq_true.mp h
  rcases offDiagPairs_cover he hf hne with hp | hp
  · have hx := hall _ hp
    simp only [Bool.and_eq_true, Bool.not_eq_true'] at hx
    exact splitsOn_eq_nil hx.1.1.1.1.1 hx.1.1.1.2 hx.1.1.2
  · have hx := hall _ hp
    simp only [Bool.and_eq_true, Bool.not_eq_true'] at hx
    exact splitsOn_eq_nil hx.1.1.1.1.2 hx.1.2 hx.2

theorem flatMap_nil_of {α β : Type} {g : α → List β} :
    ∀ {l : List α}, (∀ x ∈ l, g x = []) → l.flatMap g = [] := by
  intro l
  induction l with
  | nil => intro _; rfl
  | cons a t ih =>
    intro h
    rw [List.flatMap_cons, h a (List.mem_cons_self a t),
      ih (fun x hx => h x (List.mem_cons_of_mem a hx))]
    rfl

theorem splitPoints_nil_of_simple {edges : List Seg} (h : simplePolyInput edges = true)
    {e : Seg} (he : e ∈ edges) : splitPoints e edges = [] := by
  unfold splitPoints
  have hz : (edges.filter (fun f => f != e)).flatMap (fun f => splitsOn e f) = [] := by
    apply flatMap_nil_of
    intro f hf
    rw [List.mem_filter] at hf
    exact splitsOn_nil_of_simple h e he f hf.1 (Ne.symm (bne_iff_ne.mp hf.2))
  rw [hz]
  rfl

theorem arcsOf_simple {edges : List Seg} (h : simplePolyInput edges = true)
    {e : Seg} (he : e ∈ edges) : arcsOf e edges = [⟨toQ e.a, toQ e.b⟩] := by
  unfold arcsOf orderedSplits
  rw [splitPoints_nil_of_simple h he]
  rfl

theorem length_flatMap_singleton {α β : Type} {g : α → List β} :
    ∀ {l : List α}, (∀ x ∈ l, (g x).length = 1) → (l.flatMap g).length = l.length := by
  intro l
  induction l with
  | nil => intro _; rfl
  | cons a t ih =>
    intro h
    rw [List.flatMap_cons, List.length_append, h a (List.mem_cons_self a t),
      ih (fun x hx => h x (List.mem_cons_of_mem a hx)), List.length_cons]
    omega

theorem filterMap_nil_of {α β : Type} {g : α → Option β} :
    ∀ {l : List α}, (∀ x ∈ l, g x = none) → l.filterMap g = [] := by
  intro l
  induction l with
  | nil => intro _; rfl
  | cons a t ih =>
    intro h
    rw [List.filterMap_cons, h a (List.mem_cons_self a t),
      ih (fun x hx => h x (List.mem_cons_of_mem a hx))]

theorem properCrossPoints_nil_of_simple {edges : List Seg}
    (h : simplePolyInput edges = true) : properCrossPoints edges = [] := by
  unfold properCrossPoints
  apply filterMap_nil_of
  intro pr hpr
  have hx := List.all_eq_true.mp h _ hpr
  simp only [Bool.and_eq_true, Bool.not_eq_true'] at hx
  simp [hx.1.1.1.1.1]

theorem sweep_ok {edges : List Seg} {arr : Arrangement}
    (h : sweep edges = Except.ok arr) : arr = buildArrangement edges := by
  unfold sweep at h
  by_cases hc : (offDiagPairs edges).all (fun pr => segPairSafe pr.1 pr.2) = true
  · rw [if_pos hc] at h
    cases h
    rfl
  · rw [if_neg hc] at h
    cases h

/-- C3.  The Arrangement the sweep produces for N segments forming a
simple polygon (no pair of distinct edges crossing, touching or
overlapping) has exactly N arcs and no new intersection vertex; for two
properly crossing segments it has exactly one intersection vertex and four
arcs. -/
theorem c3_sweep_arrangement_counts :
    (∀ (edges : List Seg) (arr : Arrangement), sweep edges = Except.ok arr →
        simplePolyInput edges = true →
        arr.arcs.length = edges.length ∧ arr.newVertices.length = 0)
    ∧ (∀ (e f : Seg) (arr : Arrangement), sweep [e, f] = Except.ok arr →
        properCross e f = true →
        arr.arcs.length = 4 ∧ arr.newVertices.length = 1) := by
  constructor
  · intro edges arr hs hsimple
    rw [sweep_ok hs]
    constructor
    · unfold buildArrangement
      exact length_flatMap_singleton fun e he => by rw [arcsOf_simple hsimple he]; rfl
    · unfold buildArrangement
      rw [properCrossPoints_nil_of_simple hsimple]
      rfl
  · intro e f arr hs hx
    rw [sweep_ok hs]
    have hne : e ≠ f := ne_of_properCross hx
    have hfe : (f != e) = true := bne_iff_ne.mpr (Ne.symm hne)
    have hef : (e != f) = true := bne_iff_ne.mpr hne
    have hxfe : properCross f e = true := by rw [properCross_comm]; exact hx
    have hsplit_e : splitPoints e [e, f] = [crossPt e f] := by
      unfold splitPoints
      rw [show List.filter (fun g => g != e) [e, f] = [f] by
        simp [List.filter, hfe]]
      rw [List.flatMap_cons, splitsOn_of_properCross hx]
      rfl
    have hsplit_f : splitPoints f [e, f] = [crossPt f e] := by
      unfold splitPoints
      rw [show List.filter (fun g => g != f) [e, f] = [e] by
        simp [List.filter, hef]]
      rw [List.flatMap_cons, splitsOn_of_properCross hxfe]
      rfl
    constructor
    · show ([e, f].flatMap (fun s => arcsOf s [e, f])).length = 4
      rw [List.flatMap_cons, List.flatMap_cons]
      unfold arcsOf orderedSplits
      rw [hsplit_e, hsplit_f]
      rfl
    · show ((properCrossPoints [e, f]).dedup).length = 1
      unfold properCrossPoints
      simp [hx, offDiagPairs, List.dedup_cons_of_not_mem]

/-- Witness for C3: the four edges of a concrete square form a simple
polygon and yield four arcs with no new vertices; two concrete crossing
diagonals yield four arcs and one intersection vertex. -/
theorem c3_witness :
    sweep [⟨(0, 0), (2, 0)⟩, ⟨(2, 0), (2, 2)⟩, ⟨(2, 2), (0, 2)⟩, ⟨(0, 2), (0, 0)⟩] =
        Except.ok (buildArrangement
          [⟨(0, 0), (2, 0)⟩, ⟨(2, 0), (2, 2)⟩, ⟨(2, 2), (0, 2)⟩, ⟨(0, 2), (0, 0)⟩])
    ∧ simplePolyInput
        [⟨(0, 0), (2, 0)⟩, ⟨(2, 0), (2, 2)⟩, ⟨(2, 2), (0, 2)⟩, ⟨(0, 2), (0, 0)⟩] = true
    ∧ (buildArrangement
        [⟨(0, 0), (2, 0)⟩, ⟨(2, 0), (2, 2)⟩, ⟨(2, 2), (0, 2)⟩, ⟨(0, 2), (0, 0)⟩]).arcs.length = 4
    ∧ (buildArrangement
        [⟨(0, 0), (2, 0)⟩, ⟨(2, 0), (2, 2)⟩, ⟨(2, 2), (0, 2)⟩,
          ⟨(0, 2), (0, 0)⟩]).newVertices.length = 0
    ∧ properCross ⟨(0, 0), (2, 2)⟩ ⟨(0, 2), (2, 0)⟩ = true
    ∧ (buildArrangement [⟨(0, 0), (2, 2)⟩, ⟨(0, 2), (2, 0)⟩]).arcs.length = 4
    ∧ (buildArrangement [⟨(0, 0), (2, 2)⟩, ⟨(0, 2), (2, 0)⟩]).newVertices.length = 1 := by
  have hs1 : sweep [(⟨(0, 0), (2, 0)⟩ : Seg), ⟨(2, 0), (2, 2)⟩, ⟨(2, 2), (0, 2)⟩,
      ⟨(0, 2), (0, 0)⟩] = Except.ok (buildArrangement
        [⟨(0, 0), (2, 0)⟩, ⟨(2, 0), (2, 2)⟩, ⟨(2, 2), (0, 2)⟩, ⟨(0, 2), (0, 0)⟩]) := by
    unfold sweep
    rw [if_pos (by decide)]
  have hs2 : sweep [(⟨(0, 0), (2, 2)⟩ : Seg), ⟨(0, 2), (2, 0)⟩] =
      Except.ok (buildArrangement [⟨(0, 0), (2, 2)⟩, ⟨(0, 2), (2, 0)⟩]) := by
    unfold sweep
    rw [if_pos (by decide)]
  obtain ⟨ha, hb⟩ := c3_sweep_arrangement_counts.1 _ _ hs1 (by decide)
  obtain ⟨hc, hd⟩ := c3_sweep_arrangement_counts.2 _ _ _ hs2 (by decide)
  exact ⟨hs1, by decide, by rw [ha]; rfl, hb, by decide, hc, hd⟩

theorem dimSup_empty_left (d : Dim) : dimSup Dim.empty d = d := by
  cases d <;> rfl

theorem dimSup_empty_right (d : Dim) : dimSup d Dim.empty = d := by
  cases d <;> rfl

theorem dimSup_idem (d : Dim) : dimSup d d = d := by
  cases d <;> rfl

theorem dimSup_assoc (d e g : Dim) : dimSup (dimSup d e) g = dimSup d (dimSup e g) := by
  cases d <;> cases e <;> cases g <;> rfl

theorem relateMatrix_nil (i j : PosClass) : relateMatrix [] i j = Dim.empty := rfl

theorem relateMatrix_cons (f : Feature) (fs : List Feature) (i j : PosClass) :
    relateMatrix (f :: fs) i j =
      if f.ca == i && f.cb == j then dimSup f.d (relateMatrix fs i j)
      else relateMatrix fs i j := rfl

theorem relateMatrix_append (fs gs : List Feature) (i j : PosClass) :
    relateMatrix (fs ++ gs) i j = dimSup (relateMatrix fs i j) (relateMatrix gs i j) := by
  induction fs with
  | nil => rw [List.nil_append, relateMatrix_nil, dimSup_empty_left]
  | cons f t ih =>
    rw [List.cons_append, relateMatrix_cons, relateMatrix_cons, ih]
    by_cases hm : (f.ca == i && f.cb == j) = true
    · rw [if_pos hm, if_pos hm, dimSup_assoc]
    · rw [if_neg hm, if_neg hm]

theorem dimLe_sup_self (d e : Dim) : dimLe d (dimSup d e) = true := by
  cases d <;> cases e <;> rfl

theorem dimLe_sup_right {a c : Dim} (b : Dim) (h : dimLe a c = true) :
    dimLe a (dimSup b c) = true := by
  cases a <;> cases b <;> cases c <;> revert h <;> decide

theorem mem_feature_le {f : Feature} : ∀ {fs : List Feature}, f ∈ fs →
    dimLe f.d (relateMatrix fs f.ca f.cb) = true := by
  intro fs
  induction fs with
  | nil => intro h; exact absurd h (List.not_mem_nil f)
  | cons gf t ih =>
    intro hf
    rw [relateMatrix_cons]
    rcases List.mem_cons.mp hf with rfl | hf'
    · rw [if_pos (by simp)]
      exact dimLe_sup_self _ _
    · by_cases hm : (gf.ca == f.ca && gf.cb == f.cb) = true
      · rw [if_pos hm]
        exact dimLe_sup_right _ (ih hf')
      · rw [if_neg hm]
        exact ih hf'

theorem min_le_half (x y : ℚ) : min x y ≤ (x + y) / 2 := by
  rcases le_total x y with h | h
  · rw [min_eq_left h]
    linarith
  · rw [min_eq_right h]
    linarith

theorem half_le_max (x y : ℚ) : (x + y) / 2 ≤ max x y := by
  rcases le_total x y with h | h
  · rw [max_eq_right h]
    linarith
  · rw [max_eq_left h]
    linarith

theorem onSegQ_mid (s : QSeg) : onSegQ (midQ s) s = true := by
  unfold onSegQ midQ
  have hdet : orientationQ s.a s.b ((s.a.1 + s.b.1) / 2, (s.a.2 + s.b.2) / 2)
      = Orientation.collinear := by
    show orientationOfDet2 ((s.b.1 - s.a.1) * ((s.a.2 + s.b.2) / 2 - s.a.2)
      - (s.b.2 - s.a.2) * ((s.a.1 + s.b.1) / 2 - s.a.1)) = Orientation.collinear
    rw [show (s.b.1 - s.a.1) * ((s.a.2 + s.b.2) / 2 - s.a.2)
        - (s.b.2 - s.a.2) * ((s.a.1 + s.b.1) / 2 - s.a.1) = 0 by ring]
    rfl
  rw [hdet]
  simp only [beq_self_eq_true, Bool.true_and, Bool.and_eq_true, decide_eq_true_eq]
  exact ⟨⟨⟨min_le_half s.a.1 s.b.1, half_le_max s.a.1 s.b.1⟩, min_le_half s.a.2 s.b.2⟩,
    half_le_max s.a.2 s.b.2⟩

theorem mem_combinedArcs_self {a : Geometry}
    (hsimple : simplePolyInput (allSegs a ++ allSegs a) = true)
    {e : Seg} (he : e ∈ allSegs a) :
    (⟨toQ e.a, toQ e.b⟩ : QSeg) ∈ combinedArcs a a := by
  show (⟨toQ e.a, toQ e.b⟩ : QSeg) ∈
    (allSegs a ++ allSegs a).flatMap fun s => arcsOf s (allSegs a ++ allSegs a)
  apply List.mem_flatMap.mpr
  refine ⟨e, List.mem_append_left _ he, ?_⟩
  rw [arcsOf_simple hsimple (List.mem_append_left _ he)]
  exact List.mem_cons_self _ _

theorem arcClass_self_boundary {a : Geometry}
    (hsimple : simplePolyInput (allSegs a ++ allSegs a) = true)
    {c : QSeg} (hc : c ∈ combinedArcs a a) : arcClass a c = PosClass.boundary := by
  have hc' : c ∈ (allSegs a ++ allSegs a).flatMap
      fun s => arcsOf s (allSegs a ++ allSegs a) := hc
  obtain ⟨e, he, hce⟩ := List.mem_flatMap.mp hc'
  have he' : e ∈ allSegs a := by
    rcases List.mem_append.mp he with h | h <;> exact h
  rw [arcsOf_simple hsimple he] at hce
  have hceq : c = ⟨toQ e.a, toQ e.b⟩ := by
    rcases List.mem_cons.mp hce with h | h
    · exact h
    · exact absurd h (List.not_mem_nil c)
  subst hceq
  have hbd : onBoundaryQ a (midQ (⟨toQ e.a, toQ e.b⟩ : QSeg)) = true := by
    apply List.any_eq_true.mpr
    exact ⟨toQSeg e, List.mem_map_of_mem toQSeg he', onSegQ_mid (toQSeg e)⟩
  unfold arcClass
  rw [if_pos hbd]

theorem dimLe_area_eq {d : Dim} (h : dimLe Dim.area d = true) : d = Dim.area := by
  cases d <;> first | rfl | exact absurd h (by decide)

theorem dimLe_antisymm {x y : Dim} (h1 : dimLe x y = true) (h2 : dimLe y x = true) :
    x = y := by
  cases x <;> cases y <;> revert h1 h2 <;> decide

theorem dimSup_le {x y d : Dim} (hx : dimLe x d = true) (hy : dimLe y d = true) :
    dimLe (dimSup x y) d = true := by
  cases x <;> cases y <;> cases d <;> revert hx hy <;> decide

theorem relateMatrix_le {d : Dim} {i j : PosClass} :
    ∀ {fs : List Feature}, (∀ f ∈ fs, f.ca = i → f.cb = j → dimLe f.d d = true) →
      dimLe (relateMatrix fs i j) d = true := by
  intro fs
  induction fs with
  | nil => intro _; cases d <;> rfl
  | cons f t ih =>
    intro h
    rw [relateMatrix_cons]
    by_cases hm : (f.ca == i && f.cb == j) = true
    · rw [if_pos hm]
      simp only [Bool.and_eq_true, beq_iff_eq] at hm
      exact dimSup_le (h f (List.mem_cons_self f t) hm.1 hm.2)
        (ih fun g hg hca hcb => h g (List.mem_cons_of_mem f hg) hca hcb)
    · rw [if_neg hm]
      exact ih fun g hg hca hcb => h g (List.mem_cons_of_mem f hg) hca hcb

theorem relateMatrix_offdiag {i j : PosClass} (hij : i ≠ j) :
    ∀ {fs : List Feature}, (∀ f ∈ fs, f.ca = f.cb) → relateMatrix fs i j = Dim.empty := by
  intro fs
  induction fs with
  | nil => intro _; rfl
  | cons f t ih =>
    intro h
    rw [relateMatrix_cons]
    have hguard : ¬((f.ca == i && f.cb == j) = true) := by
      intro hg
      simp only [Bool.and_eq_true, beq_iff_eq] at hg
      exact hij ((hg.1.symm.trans (h f (List.mem_cons_self f t))).trans hg.2)
    rw [if_neg hguard]
    exact ih fun g hg => h g (List.mem_cons_of_mem f hg)

theorem relateFeatures_self_diag (a : Geometry) (samples : List IPt) :
    ∀ f ∈ relateFeatures a a samples, f.ca = f.cb := by
  intro f hf
  unfold relateFeatures at hf
  rcases List.mem_append.mp hf with hf | hf
  · rcases List.mem_append.mp hf with hf | hf
    · obtain ⟨v, -, rfl⟩ := List.mem_map.mp hf
      rfl
    · obtain ⟨c, -, rfl⟩ := List.mem_map.mp hf
      rfl
  · obtain ⟨p, -, rfl⟩ := List.mem_map.mp hf
    rfl

/-- C4.  For a valid geometry A — simple boundary, at least one edge, a
face representative interior to A and one exterior to A — the matrix
`relate(A, A)` computed from the classified vertex, arc and face features
of the self-arrangement has dimensional code `area` at interior/interior,
`line` at boundary/boundary and `area` at exterior/exterior, and the
derived `equals` predicate holds of it: relate is reflexive. -/
theorem c4_relate_reflexive (a : Geometry) (pin pout : IPt)
    (hsimple : simplePolyInput (allSegs a ++ allSegs a) = true)
    (hb : allSegs a ≠ [])
    (hin : coordinatePosition a pin = PosClass.interior)
    (hout : coordinatePosition a pout = PosClass.exterior) :
    relateWith a a [pin, pout] PosClass.interior PosClass.interior = Dim.area
    ∧ relateWith a a [pin, pout] PosClass.boundary PosClass.boundary = Dim.line
    ∧ relateWith a a [pin, pout] PosClass.exterior PosClass.exterior = Dim.area
    ∧ equalsPred (relateWith a a [pin, pout]) = true := by
  have hinmem : regionFeatureAt a a pin ∈ relateFeatures a a [pin, pout] := by
    unfold relateFeatures
    exact List.mem_append_right _ (List.mem_map_of_mem _ (List.mem_cons_self pin [pout]))
  have houtmem : regionFeatureAt a a pout ∈ relateFeatures a a [pin, pout] := by
    unfold relateFeatures
    exact List.mem_append_right _
      (List.mem_map_of_mem _ (List.mem_cons_of_mem pin (List.mem_cons_self pout [])))
  have hII : relateWith a a [pin, pout] PosClass.interior PosClass.interior = Dim.area := by
    have h : dimLe Dim.area (relateMatrix (relateFeatures a a [pin, pout])
        (coordinatePosition a pin) (coordinatePosition a pin)) = true :=
      mem_feature_le hinmem
    rw [hin] at h
    exact dimLe_area_eq h
  have hEE : relateWith a a [pin, pout] PosClass.exterior PosClass.exterior = Dim.area := by
    have h : dimLe Dim.area (relateMatrix (relateFeatures a a [pin, pout])
        (coordinatePosition a pout) (coordinatePosition a pout)) = true :=
      mem_feature_le houtmem
    rw [hout] at h
    exact dimLe_area_eq h
  have hBB : relateWith a a [pin, pout] PosClass.boundary PosClass.boundary = Dim.line := by
    obtain ⟨e, he⟩ : ∃ e, e ∈ allSegs a := by
      cases hsegs : allSegs a with
      | nil => exact absurd hsegs hb
      | cons e t => exact ⟨e, List.mem_cons_self e t⟩
    have hc := mem_combinedArcs_self hsimple he
    have hcls := arcClass_self_boundary hsimple hc
    have hmem : arcFeature a a ⟨toQ e.a, toQ e.b⟩ ∈ relateFeatures a a [pin, pout] := by
      unfold relateFeatures
      exact List.mem_append_left _ (List.mem_append_right _ (List.mem_map_of_mem _ hc))
    have hlow : dimLe Dim.line (relateMatrix (relateFeatures a a [pin, pout])
        (arcClass a ⟨toQ e.a, toQ e.b⟩) (arcClass a ⟨toQ e.a, toQ e.b⟩)) = true :=
      mem_feature_le hmem
    rw [hcls] at hlow
    have hup : dimLe (relateMatrix (relateFeatures a a [pin, pout])
        PosClass.boundary PosClass.boundary) Dim.line = true := by
      apply relateMatrix_le
      intro f hf hca hcb
      unfold relateFeatures at hf
      rcases List.mem_append.mp hf with hf | hf
      · rcases List.mem_append.mp hf with hf | hf
        · obtain ⟨v, -, rfl⟩ := List.mem_map.mp hf
          rfl
        · obtain ⟨c, -, rfl⟩ := List.mem_map.mp hf
          rfl
      · obtain ⟨p, hp, rfl⟩ := List.mem_map.mp hf
        exfalso
        rcases List.mem_cons.mp hp with rfl | hp'
        · have hx : coordinatePosition a p = PosClass.boundary := hca
          rw [hin] at hx
          exact absurd hx (by decide)
        · rcases List.mem_cons.mp hp' with rfl | hp''
          · have hx : coordinatePosition a p = PosClass.boundary := hca
            rw [hout] at hx
            exact absurd hx (by decide)
          · exact absurd hp'' (List.not_mem_nil p)
    exact dimLe_antisymm hup hlow
  have hIE : relateWith a a [pin, pout] PosClass.interior PosClass.exterior = Dim.empty :=
    relateMatrix_offdiag (by decide) (relateFeatures_self_diag a [pin, pout])
  have hBE : relateWith a a [pin, pout] PosClass.boundary PosClass.exterior = Dim.empty :=
    relateMatrix_offdiag (by decide) (relateFeatures_self_diag a [pin, pout])
  have hEI : relateWith a a [pin, pout] PosClass.exterior PosClass.interior = Dim.empty :=
    relateMatrix_offdiag (by decide) (relateFeatures_self_diag a [pin, pout])
  have hEB : relateWith a a [pin, pout] PosClass.exterior PosClass.boundary = Dim.empty :=
    relateMatrix_offdiag (by decide) (relateFeatures_self_diag a [pin, pout])
  refine ⟨hII, hBB, hEE, ?_⟩
  unfold equalsPred
  rw [hII, hIE, hBE, hEI, hEB]
  rfl

/-- Witness for C4: a concrete square with the interior representative
(1, 1) and the exterior representative (5, 5); every hypothesis is decided
on the square, and the four matrix facts follow. -/
theorem c4_witness :
    simplePolyInput (allSegs ⟨[[(0, 0), (2, 0), (2, 2), (0, 2), (0, 0)]]⟩
        ++ allSegs ⟨[[(0, 0), (2, 0), (2, 2), (0, 2), (0, 0)]]⟩) = true
    ∧ allSegs ⟨[[(0, 0), (2, 0), (2, 2), (0, 2), (0, 0)]]⟩ ≠ []
    ∧ coordinatePosition ⟨[[(0, 0), (2, 0), (2, 2), (0, 2), (0, 0)]]⟩ (1, 1) =
        PosClass.interior
    ∧ coordinatePosition ⟨[[(0, 0), (2, 0), (2, 2), (0, 2), (0, 0)]]⟩ (5, 5) =
        PosClass.exterior
    ∧ relateWith ⟨[[(0, 0), (2, 0), (2, 2), (0, 2), (0, 0)]]⟩
        ⟨[[(0, 0), (2, 0), (2, 2), (0, 2), (0, 0)]]⟩ [(1, 1), (5, 5)]
        PosClass.interior PosClass.interior = Dim.area
    ∧ relateWith ⟨[[(0, 0), (2, 0), (2, 2), (0, 2), (0, 0)]]⟩
        ⟨[[(0, 0), (2, 0), (2, 2), (0, 2), (0, 0)]]⟩ [(1, 1), (5, 5)]
        PosClass.boundary PosClass.boundary = Dim.line
    ∧ relateWith ⟨[[(0, 0), (2, 0), (2, 2), (0, 2), (0, 0)]]⟩
        ⟨[[(0, 0), (2, 0), (2, 2), (0, 2), (0, 0)]]⟩ [(1, 1), (5, 5)]
        PosClass.exterior PosClass.exterior = Dim.area
    ∧ equalsPred (relateWith ⟨[[(0, 0), (2, 0), (2, 2), (0, 2), (0, 0)]]⟩
        ⟨[[(0, 0), (2, 0), (2, 2), (0, 2), (0, 0)]]⟩ [(1, 1), (5, 5)]) = true := by
  obtain ⟨h1, h2, h3, h4⟩ := c4_relate_reflexive
    ⟨[[(0, 0), (2, 0), (2, 2), (0, 2), (0, 0)]]⟩ (1, 1) (5, 5)
    (by decide) (by decide) (by decide) (by decide)
  exact ⟨by decide, by decide, by decide, by decide, h1, h2, h3, h4⟩

/-- C9.  A point lying on a boundary shared by A and B is classified as
boundary for both operands, so its feature is attributed to the
boundary/boundary cell (and never the interior/interior cell), and when it
is one of the combined vertices the boundary/boundary entry of
`relate(A, B)` records at least its dimension. -/
theorem c9_shared_boundary (a b : Geometry) (p : IPt)
    (hA : onBoundary a p = true) (hB : onBoundary b p = true) :
    coordinatePosition a p = PosClass.boundary
    ∧ coordinatePosition b p = PosClass.boundary
    ∧ cellOf (featureAt a b p) = (PosClass.boundary, PosClass.boundary)
    ∧ cellOf (featureAt a b p) ≠ (PosClass.interior, PosClass.interior)
    ∧ (p ∈ samplePoints a b →
        dimLe Dim.point (relate a b PosClass.boundary PosClass.boundary) = true) := by
  have ca : coordinatePosition a p = PosClass.boundary := by
    unfold coordinatePosition
    rw [if_pos hA]
  have cb : coordinatePosition b p = PosClass.boundary := by
    unfold coordinatePosition
    rw [if_pos hB]
  have hcell : cellOf (featureAt a b p) = (PosClass.boundary, PosClass.boundary) := by
    unfold cellOf featureAt
    rw [ca, cb]
  refine ⟨ca, cb, hcell, by rw [hcell]; decide, ?_⟩
  intro hp
  have h5 := mem_feature_le (List.mem_map_of_mem (featureAt a b) hp)
  simp only [featureAt] at h5
  rw [ca, cb] at h5
  exact h5

/-- Witness for C9: the corner (2, 0) lies on the shared boundary of two
concrete squares and is one of their combined vertices. -/
theorem c9_witness :
    onBoundary ⟨[[(0, 0), (2, 0), (2, 2), (0, 2), (0, 0)]]⟩ (2, 0) = true
    ∧ onBoundary ⟨[[(2, 0), (4, 0), (4, 2), (2, 2), (2, 0)]]⟩ (2, 0) = true
    ∧ (2, 0) ∈ samplePoints ⟨[[(0, 0), (2, 0), (2, 2), (0, 2), (0, 0)]]⟩
        ⟨[[(2, 0), (4, 0), (4, 2), (2, 2), (2, 0)]]⟩
    ∧ cellOf (featureAt ⟨[[(0, 0), (2, 0), (2, 2), (0, 2), (0, 0)]]⟩
        ⟨[[(2, 0), (4, 0), (4, 2), (2, 2), (2, 0)]]⟩ (2, 0)) =
        (PosClass.boundary, PosClass.boundary)
    ∧ dimLe Dim.point (relate ⟨[[(0, 0), (2, 0), (2, 2), (0, 2), (0, 0)]]⟩
        ⟨[[(2, 0), (4, 0), (4, 2), (2, 2), (2, 0)]]⟩
        PosClass.boundary PosClass.boundary) = true := by
  obtain ⟨h1, h2, h3, h4, h5⟩ := c9_shared_boundary
    ⟨[[(0, 0), (2, 0), (2, 2), (0, 2), (0, 0)]]⟩
    ⟨[[(2, 0), (4, 0), (4, 2), (2, 2), (2, 0)]]⟩ (2, 0) (by decide) (by decide)
  exact ⟨by decide, by decide, by decide, h3, h5 (by decide)⟩

theorem iLtB_eq_true_iff (p q : IPt) :
    iLtB p q = true ↔ (p.1 < q.1 ∨ (p.1 = q.1 ∧ p.2 < q.2)) := by
  simp [iLtB]

theorem iLtB_irrefl (p : IPt) : iLtB p p = false := by
  simp [iLtB]

theorem iLtB_trans : ∀ p q r : IPt, iLtB p q = true → iLtB q r = true → iLtB p r = true := by
  intro p q r h1 h2
  rw [iLtB_eq_true_iff] at *
  rcases h1 with h1 | ⟨h1e, h1y⟩ <;> rcases h2 with h2 | ⟨h2e, h2y⟩
  · exact Or.inl (lt_trans h1 h2)
  · exact Or.inl (by rw [← h2e]; exact h1)
  · exact Or.inl (by rw [h1e]; exact h2)
  · exact Or.inr ⟨h1e.trans h2e, lt_trans h1y h2y⟩

theorem iLtB_total : ∀ p q : IPt, iLtB p q = false → iLtB q p = false → p = q := by
  intro p q h1 h2
  rw [← Bool.not_eq_true, iLtB_eq_true_iff] at h1 h2
  push_neg at h1 h2
  have hx : p.1 = q.1 := le_antisymm h2.1 h1.1
  have hy : p.2 = q.2 := le_antisymm (h2.2 hx.symm) (h1.2 hx)
  exact Prod.ext hx hy

theorem mem_insertSorted {α : Type} {lt : α → α → Bool}
    (htotal : ∀ a b, lt a b = false → lt b a = false → a = b)
    (p x : α) : ∀ l : List α, (x ∈ insertSorted lt p l ↔ x = p ∨ x ∈ l) := by
  intro l
  induction l with
  | nil => simp [insertSorted]
  | cons q rest ih =>
    unfold insertSorted
    by_cases h1 : lt p q = true
    · rw [if_pos h1]
      simp [List.mem_cons]
    · rw [if_neg h1]
      by_cases h2 : lt q p = true
      · rw [if_pos h2]
        simp only [List.mem_cons, ih]
        tauto
      · rw [if_neg h2]
        have h1' : lt p q = false := by revert h1; cases lt p q <;> simp
        have h2' : lt q p = false := by revert h2; cases lt q p <;> simp
        have heq : p = q := htotal p q h1' h2'
        rw [heq]
        simp only [List.mem_cons]
        tauto

theorem pairwise_insertSorted {α : Type} {lt : α → α → Bool}
    (htrans : ∀ a b c, lt a b = true → lt b c = true → lt a c = true)
    (htotal : ∀ a b, lt a b = false → lt b a = false → a = b)
    (p : α) : ∀ l : List α, l.Pairwise (fun a b => lt a b = true) →
      (insertSorted lt p l).Pairwise (fun a b => lt a b = true) := by
  intro l
  induction l with
  | nil => intro _; simp [insertSorted]
  | cons q rest ih =>
    intro hl
    rw [List.pairwise_cons] at hl
    obtain ⟨hq, hrest⟩ := hl
    unfold insertSorted
    by_cases h1 : lt p q = true
    · rw [if_pos h1]
      refine List.Pairwise.cons ?_ (List.Pairwise.cons hq hrest)
      intro x hx
      rcases List.mem_cons.mp hx with rfl | hx'
      · exact h1
      · exact htrans p q x h1 (hq x hx')
    · rw [if_neg h1]
      by_cases h2 : lt q p = true
      · rw [if_pos h2]
        refine List.Pairwise.cons ?_ (ih hrest)
        intro x hx
        rcases (mem_insertSorted htotal p x rest).mp hx with rfl | hx'
        · exact h2
        · exact hq x hx'
      · rw [if_neg h2]
        exact List.Pairwise.cons hq hrest

theorem mem_sortDedup {α : Type} {lt : α → α → Bool}
    (htotal : ∀ a b, lt a b = false → lt b a = false → a = b)
    (x : α) : ∀ l : List α, (x ∈ sortDedup lt l ↔ x ∈ l) := by
  intro l
  induction l with
  | nil => simp [sortDedup]
  | cons a t ih =>
    unfold sortDedup at *
    rw [List.foldr_cons, mem_insertSorted htotal a x _, ih]
    simp [List.mem_cons]

theorem pairwise_sortDedup {α : Type} {lt : α → α → Bool}
    (htrans : ∀ a b c, lt a b = true → lt b c = true → lt a c = true)
    (htotal : ∀ a b, lt a b = false → lt b a = false → a = b) :
    ∀ l : List α, (sortDedup lt l).Pairwise (fun a b => lt a b = true) := by
  intro l
  induction l with
  | nil => simp [sortDedup]
  | cons a t ih =>
    unfold sortDedup at *
    rw [List.foldr_cons]
    exact pairwise_insertSorted htrans htotal a _ ih

theorem sorted_eq_of_mem_iff {α : Type} {lt : α → α → Bool}
    (htrans : ∀ a b c, lt a b = true → lt b c = true → lt a c = true)
    (hirrefl : ∀ a, lt a a = false) :
    ∀ l₁ l₂ : List α, l₁.Pairwise (fun a b => lt a b = true) →
      l₂.Pairwise (fun a b => lt a b = true) →
      (∀ x, x ∈ l₁ ↔ x ∈ l₂) → l₁ = l₂ := by
  intro l₁
  induction l₁ with
  | nil =>
    intro l₂ _ _ hmem
    cases l₂ with
    | nil => rfl
    | cons b t₂ => exact absurd ((hmem b).mpr (List.mem_cons_self b t₂)) (List.not_mem_nil b)
  | cons a t₁ ih =>
    intro l₂ h₁ h₂ hmem
    cases l₂ with
    | nil => exact absurd ((hmem a).mp (List.mem_cons_self a t₁)) (List.not_mem_nil a)
    | cons b t₂ =>
      rw [List.pairwise_cons] at h₁ h₂
      have hab : a = b := by
        rcases List.mem_cons.mp ((hmem a).mp (List.mem_cons_self a t₁)) with h | h
        · exact h
        · rcases List.mem_cons.mp ((hmem b).mpr (List.mem_cons_self b t₂)) with h' | h'
          · exact h'.symm
          · have hcon : lt a a = true := htrans a b a (h₁.1 b h') (h₂.1 a h)
            rw [hirrefl a] at hcon
            exact absurd hcon (by simp)
      subst hab
      have htails : ∀ x, x ∈ t₁ ↔ x ∈ t₂ := by
        intro x
        constructor
        · intro hx
          have hax : lt a x = true := h₁.1 x hx
          rcases List.mem_cons.mp ((hmem x).mp (List.mem_cons_of_mem a hx)) with rfl | h'
          · rw [hirrefl x] at hax
            exact absurd hax (by simp)
          · exact h'
        · intro hx
          have hax : lt a x = true := h₂.1 x hx
          rcases List.mem_cons.mp ((hmem x).mpr (List.mem_cons_of_mem a hx)) with rfl | h'
          · rw [hirrefl x] at hax
            exact absurd hax (by simp)
          · exact h'
      rw [ih t₂ h₁.2 h₂.2 htails]

theorem samplePoints_comm (a b : Geometry) : samplePoints a b = samplePoints b a := by
  apply sorted_eq_of_mem_iff iLtB_trans iLtB_irrefl _ _
    (pairwise_sortDedup iLtB_trans iLtB_total _)
    (pairwise_sortDedup iLtB_trans iLtB_total _)
  intro x
  rw [mem_sortDedup iLtB_total, mem_sortDedup iLtB_total]
  simp only [List.mem_append]
  tauto

theorem relateMatrix_map_swap (fs : List Feature) (i j : PosClass) :
    relateMatrix (fs.map swapFeature) i j = relateMatrix fs j i := by
  induction fs with
  | nil => rfl
  | cons f t ih =>
    rw [List.map_cons, relateMatrix_cons, relateMatrix_cons, ih]
    have hcond : ((swapFeature f).ca == i && (swapFeature f).cb == j) =
        (f.ca == j && f.cb == i) := Bool.and_comm _ _
    rw [hcond]
    rfl

theorem relate_swap (a b : Geometry) (i j : PosClass) :
    relate b a i j = relate a b j i := by
  unfold relate
  rw [samplePoints_comm b a]
  have hmap : (samplePoints a b).map (featureAt b a) =
      ((samplePoints a b).map (featureAt a b)).map swapFeature := by
    rw [List.map_map]
    rfl
  rw [hmap, relateMatrix_map_swap]

/-- C10.  The derived Contains and Within predicates are converse to each
other: for every pair of geometries, `contains A B` holds exactly when
`within B A` holds, because `relate(B, A)` is the transpose of
`relate(A, B)` and the two DE-9IM templates are transposes of each
other. -/
theorem c10_contains_within_converse (a b : Geometry) :
    contains a b = within b a := by
  unfold contains within containsPred withinPred
  rw [relate_swap b a PosClass.interior PosClass.interior,
    relate_swap b a PosClass.exterior PosClass.interior,
    relate_swap b a PosClass.exterior PosClass.boundary]

theorem qLtB_eq_true_iff (p q : QPt) :
    qLtB p q = true ↔ (p.1 < q.1 ∨ (p.1 = q.1 ∧ p.2 < q.2)) := by
  simp [qLtB]

theorem qLtB_irrefl (p : QPt) : qLtB p p = false := by
  simp [qLtB]

theorem qLtB_trans : ∀ p q r : QPt, qLtB p q = true → qLtB q r = true → qLtB p r = true := by
  intro p q r h1 h2
  rw [qLtB_eq_true_iff] at *
  rcases h1 with h1 | ⟨h1e, h1y⟩ <;> rcases h2 with h2 | ⟨h2e, h2y⟩
  · exact Or.inl (lt_trans h1 h2)
  · exact Or.inl (by rw [← h2e]; exact h1)
  · exact Or.inl (by rw [h1e]; exact h2)
  · exact Or.inr ⟨h1e.trans h2e, lt_trans h1y h2y⟩

theorem qLtB_total : ∀ p q : QPt, qLtB p q = false → qLtB q p = false → p = q := by
  intro p q h1 h2
  rw [← Bool.not_eq_true, qLtB_eq_true_iff] at h1 h2
  push_neg at h1 h2
  have hx : p.1 = q.1 := le_antisymm h2.1 h1.1
  have hy : p.2 = q.2 := le_antisymm (h2.2 hx.symm) (h1.2 hx)
  exact Prod.ext hx hy

theorem mem_foldr_insertSorted {α : Type} {lt : α → α → Bool}
    (htotal : ∀ a b, lt a b = false → lt b a = false → a = b)
    (x : α) : ∀ ds init : List α,
      (x ∈ ds.foldr (insertSorted lt) init ↔ x ∈ init ∨ x ∈ ds) := by
  intro ds
  induction ds with
  | nil => intro init; simp
  | cons d t ih =>
    intro init
    rw [List.foldr_cons, mem_insertSorted htotal d x _, ih]
    simp only [List.mem_cons]
    tauto

theorem pairwise_foldr_insertSorted {α : Type} {lt : α → α → Bool}
    (htrans : ∀ a b c, lt a b = true → lt b c = true → lt a c = true)
    (htotal : ∀ a b, lt a b = false → lt b a = false → a = b) :
    ∀ ds init : List α, init.Pairwise (fun a b => lt a b = true) →
      (ds.foldr (insertSorted lt) init).Pairwise (fun a b => lt a b = true) := by
  intro ds
  induction ds with
  | nil => intro init h; exact h
  | cons d t ih =>
    intro init h
    rw [List.foldr_cons]
    exact pairwise_insertSorted htrans htotal d _ (ih init h)

theorem eventStep_sInv {edges : List Seg} {st : SweepState} (h : SInv edges st) :
    SInv edges (eventStep edges st) := by
  obtain ⟨hqs, hqU, hpn, hpU, hpq⟩ := h
  cases hq : st.queue with
  | nil =>
    have hid : eventStep edges st = st := by simp [eventStep, hq]
    rw [hid]
    exact ⟨hqs, hqU, hpn, hpU, hpq⟩
  | cons e rest =>
    have hqrest : rest.Pairwise (fun p q => qLtB p q = true) := by
      rw [hq] at hqs
      exact (List.pairwise_cons.mp hqs).2
    have hqhead : ∀ q ∈ rest, qLtB e q = true := by
      rw [hq] at hqs
      exact (List.pairwise_cons.mp hqs).1
    have heq : e ∈ st.queue := by rw [hq]; exact List.mem_cons_self e rest
    have hstep : eventStep edges st =
        { queue := ((properCrossPoints edges).filter (fun p => qLtB e p)).foldr
            (insertSorted qLtB) rest
        , processed := e :: st.processed } := by
      simp [eventStep, hq]
    rw [hstep]
    have hmemq : ∀ x, x ∈ ((properCrossPoints edges).filter
        (fun p => qLtB e p)).foldr (insertSorted qLtB) rest →
        x ∈ rest ∨ x ∈ (properCrossPoints edges).filter (fun p => qLtB e p) := by
      intro x hx
      exact (mem_foldr_insertSorted qLtB_total x _ _).mp hx
    refine ⟨?_, ?_, ?_, ?_, ?_⟩
    · exact pairwise_foldr_insertSorted qLtB_trans qLtB_total _ _ hqrest
    · intro p hp
      rcases hmemq p hp with hp' | hp'
      · exact hqU p (by rw [hq]; exact List.mem_cons_of_mem e hp')
      · exact List.mem_append_right _ (List.mem_filter.mp hp').1
    · refine List.nodup_cons.mpr ⟨?_, hpn⟩
      intro hep
      have hlt := hpq e hep e heq
      rw [qLtB_irrefl e] at hlt
      exact absurd hlt (by simp)
    · intro p hp
      rcases List.mem_cons.mp hp with rfl | hp'
      · exact hqU p heq
      · exact hpU p hp'
    · intro p hp q hqmem
      rcases List.mem_cons.mp hp with rfl | hp'
      · rcases hmemq q hqmem with hq' | hq'
        · exact hqhead q hq'
        · exact (List.mem_filter.mp hq').2
      · rcases hmemq q hqmem with hq' | hq'
        · exact hpq p hp' q (by rw [hq]; exact List.mem_cons_of_mem e hq')
        · exact qLtB_trans p e q (hpq p hp' e heq) (List.mem_filter.mp hq').2

theorem eventStep_processed {edges : List Seg} {st : SweepState} (hne : st.queue ≠ []) :
    (eventStep edges st).processed.length = st.processed.length + 1 := by
  cases hq : st.queue with
  | nil => exact absurd hq hne
  | cons e rest => simp [eventStep, hq]

theorem runSweepQueue_drains (edges : List Seg) :
    ∀ (fuel : Nat) (st : SweepState), SInv edges st →
      (eventUniverse edges).length ≤ st.processed.length + fuel →
      (runSweepQueue edges fuel st).queue = [] := by
  intro fuel
  induction fuel with
  | zero =>
    intro st hinv hlen
    cases hq : st.queue with
    | nil => simp [runSweepQueue, hq]
    | cons e rest =>
      exfalso
      obtain ⟨hqs, hqU, hpn, hpU, hpq⟩ := hinv
      have heq : e ∈ st.queue := by rw [hq]; exact List.mem_cons_self e rest
      have heU : e ∈ eventUniverse edges := hqU e heq
      have hep : e ∉ st.processed := by
        intro hp
        have hlt := hpq e hp e heq
        rw [qLtB_irrefl e] at hlt
        exact absurd hlt (by simp)
      have hsub : (e :: st.processed) ⊆ eventUniverse edges := by
        intro x hx
        rcases List.mem_cons.mp hx with rfl | hx'
        · exact heU
        · exact hpU x hx'
      have hnd : (e :: st.processed).Nodup := List.nodup_cons.mpr ⟨hep, hpn⟩
      have hle := (List.Nodup.subperm hnd hsub).length_le
      rw [List.length_cons] at hle
      omega
  | succ n ih =>
    intro st hinv hlen
    cases hq : st.queue with
    | nil => simp [runSweepQueue, hq]
    | cons e rest =>
      have hstep : runSweepQueue edges (n + 1) st =
          runSweepQueue edges n (eventStep edges st) := by
        simp [runSweepQueue, hq]
      rw [hstep]
      apply ih _ (eventStep_sInv hinv)
      rw [eventStep_processed (by rw [hq]; exact List.cons_ne_nil e rest)]
      omega

theorem initState_sInv (edges : List Seg) : SInv edges (initState edges) := by
  refine ⟨pairwise_sortDedup qLtB_trans qLtB_total _, ?_, List.nodup_nil, ?_, ?_⟩
  · intro p hp
    unfold initState at hp
    rw [mem_sortDedup qLtB_total] at hp
    exact List.mem_append_left _ hp
  · intro p hp
    exact absurd hp (List.not_mem_nil p)
  · intro p hp
    exact absurd hp (List.not_mem_nil p)

theorem runSweepQueue_sInv (edges : List Seg) :
    ∀ (fuel : Nat) (st : SweepState), SInv edges st →
      SInv edges (runSweepQueue edges fuel st) := by
  intro fuel
  induction fuel with
  | zero => intro st h; exact h
  | succ n ih =>
    intro st h
    cases hq : st.queue with
    | nil =>
      rw [show runSweepQueue edges (n + 1) st = st by simp [runSweepQueue, hq]]
      exact h
    | cons e rest =>
      rw [show runSweepQueue edges (n + 1) st = runSweepQueue edges n (eventStep edges st) by
        simp [runSweepQueue, hq]]
      exact ih _ (eventStep_sInv h)

theorem queue_length_le (edges : List Seg) {st : SweepState} (h : SInv edges st) :
    st.queue.length ≤ (eventUniverse edges).length := by
  obtain ⟨hqs, hqU, -, -, -⟩ := h
  have hnd : st.queue.Nodup := by
    refine hqs.imp ?_
    intro a b hab heq
    rw [heq, qLtB_irrefl] at hab
    exact absurd hab (by simp)
  exact (List.Nodup.subperm hnd fun x hx => hqU x hx).length_le

theorem eventUniverse_length (edges : List Seg) :
    (eventUniverse edges).length = 2 * edges.length + (properCrossPoints edges).length := by
  unfold eventUniverse
  rw [List.length_append]
  have h2 : (edges.flatMap fun e => [toQ e.a, toQ e.b]).length = 2 * edges.length := by
    induction edges with
    | nil => rfl
    | cons e t ih =>
      rw [List.flatMap_cons, List.length_append, ih]
      show 2 + 2 * t.length = 2 * (e :: t).length
      rw [List.length_cons]
      omega
  rw [h2]

theorem runSweepQueue_of_empty (edges : List Seg) :
    ∀ (fuel : Nat) (st : SweepState), st.queue = [] → runSweepQueue edges fuel st = st := by
  intro fuel st h
  cases fuel with
  | zero => rfl
  | succ n => simp [runSweepQueue, h]

/-- C6.  The sweep's event queue is finite — it always stays within the
universe of 2 n endpoint events plus k intersection events — and strictly
drains: with fuel equal to the universe size the loop always reaches the
empty queue, the engine is inert exactly on an empty queue, and it keeps
stepping while the queue is non-empty. -/
theorem c6_sweep_termination (edges : List Seg) :
    (eventUniverse edges).length = 2 * edges.length + (properCrossPoints edges).length
    ∧ (∀ fuel : Nat, (runSweepQueue edges fuel (initState edges)).queue.length ≤
        (eventUniverse edges).length)
    ∧ (runSweepQueue edges (eventUniverse edges).length (initState edges)).queue = []
    ∧ (∀ (fuel : Nat) (st : SweepState), st.queue = [] → runSweepQueue edges fuel st = st)
    ∧ (∀ (fuel : Nat) (st : SweepState), st.queue ≠ [] →
        runSweepQueue edges (fuel + 1) st = runSweepQueue edges fuel (eventStep edges st)) := by
  refine ⟨eventUniverse_length edges, ?_, ?_, runSweepQueue_of_empty edges, ?_⟩
  · intro fuel
    exact queue_length_le edges (runSweepQueue_sInv edges fuel _ (initState_sInv edges))
  · apply runSweepQueue_drains edges _ _ (initState_sInv edges)
    simp [initState]
  · intro fuel st h
    cases hq : st.queue with
    | nil => exact absurd hq h
    | cons e rest => simp [runSweepQueue, hq]

/-- Witness for C6: the engine is inert on a concrete empty-queue state,
and steps on a concrete non-empty one. -/
theorem c6_witness :
    runSweepQueue [⟨(0, 0), (1, 0)⟩] 3 ⟨[], []⟩ = ⟨[], []⟩
    ∧ runSweepQueue [⟨(0, 0), (1, 0)⟩] 1 ⟨[((0 : ℚ), (0 : ℚ))], []⟩ =
        runSweepQueue [⟨(0, 0), (1, 0)⟩] 0
          (eventStep [⟨(0, 0), (1, 0)⟩] ⟨[((0 : ℚ), (0 : ℚ))], []⟩) :=
  ⟨(c6_sweep_termination [⟨(0, 0), (1, 0)⟩]).2.2.2.1 3 ⟨[], []⟩ rfl,
   (c6_sweep_termination [⟨(0, 0), (1, 0)⟩]).2.2.2.2 0 ⟨[((0 : ℚ), (0 : ℚ))], []⟩ (by simp)⟩

end Geo
